import Mathlib

/-!
# Verification of `DuplicateFileRemoval.py`

A shallow embedding of the duplicate-file removal utility and proofs about it.

Modelling conventions:
* A file's content is a byte sequence, modelled as `List Nat`.
* The filesystem visible to one scan is the list of `(path, content)` pairs
  that `os.walk` yields, in its (deterministic within a run) traversal order.
* `hashlib.md5(...).hexdigest()` is external library code; the digest function
  is a parameter `md5 : Content → String` of the embedding.  The chunked read
  loop of `hash_file` is embedded faithfully.
* Python dicts preserve key-insertion order, so the `duplicates` dict is an
  insertion-ordered association list `List (String × List String)` from
  digest to the paths discovered with that digest, in discovery order.
* `os.remove` either removes an existing path or raises; raising is modelled
  with `Except`, whose error value carries the state at the moment of the
  uncaught exception.
-/

/-- A file content: a byte sequence. -/
abbrev Content := List Nat

/-! ## Hasher (`hash_file`, lines 145-152) -/

/-- The chunked read loop of `hash_file`: `buf = file.read(blocksize)` is the
next `blocksize` bytes of the remaining content; while `len(buf) > 0` the
chunk is fed to the accumulator (`hasher.update(buf)` — the accumulator state
is the byte sequence fed so far). -/
def hashLoop (acc content : List Nat) (blocksize : Nat) : List Nat :=
  if h : 0 < (content.take blocksize).length then
    hashLoop (acc ++ content.take blocksize) (content.drop blocksize) blocksize
  else
    acc
termination_by content.length
decreasing_by
  simp only [List.length_take, lt_min_iff] at h
  simp only [List.length_drop]
  omega

/-- Embedding of `hash_file(path, blocksize)`: the md5 hexdigest of the bytes
fed by the chunked read loop.  `md5` abstracts `hashlib.md5(...).hexdigest()`. -/
def hash_file (md5 : Content → String) (content : Content) (blocksize : Nat) : String :=
  md5 (hashLoop [] content blocksize)

/-- Fallible `hash_file`, for a file that may be unreadable (`none` models a
file whose open/read raises `IOError`); the source has no try/except, so the
error propagates. All call sites use the default `blocksize = 1024`. -/
def hash_fileE (md5 : Content → String) : Option Content → Except Unit String
  | none => Except.error ()
  | some c => Except.ok (hash_file md5 c 1024)

/-! ## Scanner (`find_duplicates`, lines 165-175) -/

/-- One dict update of `find_duplicates`:
`duplicates[filehash].append(filepath)` when the key exists,
`duplicates[filehash] = [filepath]` otherwise, on an insertion-ordered
association list. -/
def addFile : List (String × List String) → String → String → List (String × List String)
  | [], h, p => [(h, [p])]
  | (k, ps) :: rest, h, p =>
    if k = h then (k, ps ++ [p]) :: rest else (k, ps) :: addFile rest h p

/-- Embedding of `find_duplicates(directory)`: `files` is the list of
`(path, content)` pairs the `os.walk` loop visits, in traversal order; each
file's digest is computed with `hash_file` at the default blocksize 1024 and
the path is appended to that digest's group. -/
def find_duplicates (md5 : Content → String) (files : List (String × Content)) :
    List (String × List String) :=
  files.foldl (fun groups f => addFile groups (hash_file md5 f.2 1024) f.1) []

/-- The walk loop of `find_duplicates` over possibly-unreadable files, with
the `duplicates` dict as accumulator: an `IOError` raised by `hash_file`
propagates (there is no try/except), discarding the dict built so far. -/
def findDuplicatesLoop (md5 : Content → String) :
    List (String × Option Content) → List (String × List String) →
    Except Unit (List (String × List String))
  | [], groups => Except.ok groups
  | f :: rest, groups =>
    match hash_fileE md5 f.2 with
    | Except.error e => Except.error e
    | Except.ok h => findDuplicatesLoop md5 rest (addFile groups h f.1)

/-- Embedding of `find_duplicates` over possibly-unreadable files. -/
def find_duplicatesE (md5 : Content → String) (files : List (String × Option Content)) :
    Except Unit (List (String × List String)) :=
  findDuplicatesLoop md5 files []

/-! ## Deduplicator (`delete_files`, lines 123-131) -/

/-- The list of paths `delete_files` removes and returns, in deletion order:
for each group (in dict order), if `len(file_list) > 1` then every element of
`file_list[1:]` in order.  This is the success path of the loop; the
filesystem effect and failure behaviour are modelled by `delete_filesFS`. -/
def delete_files (duplicates : List (String × List String)) : List String :=
  duplicates.foldl
    (fun deleted g => if 1 < g.2.length then deleted ++ g.2.drop 1 else deleted) []

/-- The deletion plan of `delete_files`: the non-first members of every
multi-member group, in iteration order. -/
def plannedDeletions (duplicates : List (String × List String)) : List String :=
  duplicates.flatMap (fun g => if 1 < g.2.length then g.2.drop 1 else [])

/-- `os.remove(p)` on a filesystem modelled as the list of existing paths:
removes an existing path, raises (here: returns the offending path) when the
path does not exist. -/
def osRemove (fs : List String) (p : String) : Except String (List String) :=
  if p ∈ fs then Except.ok (fs.erase p) else Except.error p

/-- Sequentially remove a list of paths, extending the accumulated
`deleted_files` list after each successful `os.remove`.  On the first failure
the exception propagates; the error value records the `deleted_files` list,
the filesystem at that moment, and the failing path. -/
def deleteSeq : List String → List String → List String →
    Except (List String × List String × String) (List String × List String)
  | [], deleted, fs => Except.ok (deleted, fs)
  | p :: rest, deleted, fs =>
    match osRemove fs p with
    | Except.ok fs' => deleteSeq rest (deleted ++ [p]) fs'
    | Except.error q => Except.error (deleted, fs, q)

/-- The outer loop of `delete_files` over the groups of the dict. -/
def deleteGroupsLoop : List (String × List String) → List String → List String →
    Except (List String × List String × String) (List String × List String)
  | [], deleted, fs => Except.ok (deleted, fs)
  | g :: gs, deleted, fs =>
    if 1 < g.2.length then
      match deleteSeq (g.2.drop 1) deleted fs with
      | Except.ok (deleted', fs') => deleteGroupsLoop gs deleted' fs'
      | Except.error e => Except.error e
    else deleteGroupsLoop gs deleted fs

/-- Embedding of `delete_files(duplicates)` together with its filesystem
effect: on success, the returned `deleted_files` list and the filesystem
afterwards; on an `os.remove` failure, the propagated exception. -/
def delete_filesFS (duplicates : List (String × List String)) (fs : List String) :
    Except (List String × List String × String) (List String × List String) :=
  deleteGroupsLoop duplicates [] fs

/-! ## Reporter (`create_log`, lines 189-205) -/

/-- The separator line `"-" * 80`. -/
def sepLine : String := String.mk (List.replicate 80 '-')

/-- Embedding of `create_log(deleted_files, log_dir)`: the path of the log
file (`log_dir` joined with `Log_<timestamp>.log`, the timestamp being
`time.strftime('%Y%m%d%H%M%S')`, passed here as `ts`) and the lines written
to it, in order: title, creation line (with `time.ctime()`, passed as `ct`),
separator, then one line per deleted file.  Mode `'w'` creates the file
fresh, so the content is exactly these lines. -/
def create_log (deleted_files : List String) (log_dir ts ct : String) :
    String × List String :=
  (log_dir ++ "/" ++ ("Log_" ++ ts ++ ".log"),
   "Duplicate File Removal Log" :: ("Log created at: " ++ ct) :: sepLine :: deleted_files)

/-! ## Driver (`main` loop body, lines 235-256) -/

/-- `total_scanned = sum(len(files) for files in duplicates.values())`. -/
def total_scanned (duplicates : List (String × List String)) : Nat :=
  (duplicates.map (fun g => g.2.length)).sum

/-- The observable result of one iteration of the `while True` loop of
`main`, on the success path of deletion. -/
structure RunResult where
  groups : List (String × List String)
  totalScanned : Nat
  deleted : List String
  logPath : String
  logLines : List String
  emailAttempted : Bool
deriving Repr

/-- One iteration of the `main` loop: scan, count, delete, write the log
under the fixed directory `"Marvellous"`, then attempt the mail only if
`is_connected()` (modelled by the boolean `connected`) is true. -/
def runOnce (md5 : Content → String) (files : List (String × Content))
    (connected : Bool) (ts ct : String) : RunResult :=
  let groups := find_duplicates md5 files
  let lg := create_log (delete_files groups) "Marvellous" ts ct
  { groups := groups
    totalScanned := total_scanned groups
    deleted := delete_files groups
    logPath := lg.1
    logLines := lg.2
    emailAttempted := connected }

/-- The on-disk log files after one iteration, given those existing before:
`create_log` makes a new file, removing none. -/
def runLogs (md5 : Content → String) (files : List (String × Content))
    (connected : Bool) (ts ct : String) (logs : List (String × List String)) :
    List (String × List String) :=
  logs ++ [((runOnce md5 files connected ts ct).logPath,
            (runOnce md5 files connected ts ct).logLines)]

/-- The filesystem after one scan-and-delete cycle: the files whose path was
not removed by `delete_files`. -/
def afterRun (md5 : Content → String) (files : List (String × Content)) :
    List (String × Content) :=
  files.filter (fun f => decide (f.1 ∉ delete_files (find_duplicates md5 files)))

/-! ## CLI (`main` argument handling, lines 214-232) -/

/-- `os.path.isabs` on a POSIX path: the path begins with the separator.
(`os.path` is external library code; this is its documented behaviour.) -/
def isAbs (p : String) : Bool := p.data.head? == some '/'

/-- `os.path.abspath` for a relative path: join with the working directory. -/
def abspath (cwd p : String) : String := if isAbs p then p else cwd ++ "/" ++ p

/-- Model of Python `int(s)`; `none` models a raised `ValueError`. -/
def pyToInt (s : String) : Option Int := s.toInt?

/-- How the argument-handling prefix of `main` can end: a usage error
(`sys.exit(1)` after the usage print), an uncaught `ValueError` from
`int(sys.argv[2])` (the interpreter exits with status 1), an invalid
directory (`sys.exit(1)` after the error print), or entry into the scan loop
with the resolved directory, interval and recipient. -/
inductive MainExit where
  | usageError : MainExit
  | valueError : MainExit
  | pathError : MainExit
  | proceed : String → Int → String → MainExit
deriving DecidableEq, Repr

/-- Embedding of `main` up to the start of the operational loop.  `argv`
includes the program name in position 0, as `sys.argv` does; `pathExists` and
`isDir` model `os.path.exists` / `os.path.isdir`. -/
def mainCheck (cwd : String) (pathExists isDir : String → Bool)
    (argv : List String) : MainExit :=
  match argv with
  | [_, dirArg, intervalArg, emailArg] =>
    match pyToInt intervalArg with
    | none => MainExit.valueError
    | some n =>
      let dir := if isAbs dirArg then dirArg else abspath cwd dirArg
      if !pathExists dir || !isDir dir then MainExit.pathError
      else MainExit.proceed dir n emailArg
  | _ => MainExit.usageError

/-- The process exit status each `MainExit` produces (an uncaught exception
also terminates CPython with status 1). -/
def exitCode : MainExit → Option Nat
  | MainExit.usageError => some 1
  | MainExit.valueError => some 1
  | MainExit.pathError => some 1
  | MainExit.proceed _ _ _ => none

/-- What the argument-handling code prints before exiting, if anything. -/
def printedMsg : MainExit → Option String
  | MainExit.usageError =>
      some "Usage: DuplicateFileRemoval.py <directory_path> <time_interval_minutes> <email>"
  | MainExit.pathError => some "Invalid directory path"
  | _ => none

/-! ## Supporting lemmas: the read loop -/

theorem hashLoop_nil (acc : List Nat) (blocksize : Nat) :
    hashLoop acc [] blocksize = acc := by
  unfold hashLoop
  simp

theorem hashLoop_spec (blocksize : Nat) (hb : 0 < blocksize) :
    ∀ (n : Nat) (content : List Nat), content.length ≤ n →
      ∀ acc, hashLoop acc content blocksize = acc ++ content := by
  intro n
  induction n with
  | zero =>
    intro content hlen acc
    have hc : content = [] := by
      cases content with
      | nil => rfl
      | cons x xs => simp at hlen
    subst hc
    simp [hashLoop_nil]
  | succ n ih =>
    intro content hlen acc
    unfold hashLoop
    by_cases hpos : 0 < (content.take blocksize).length
    · rw [dif_pos hpos]
      have hlt : (content.drop blocksize).length ≤ n := by
        simp only [List.length_take, lt_min_iff] at hpos
        simp only [List.length_drop]
        omega
      rw [ih (content.drop blocksize) hlt]
      rw [List.append_assoc, List.take_append_drop]
    · rw [dif_neg hpos]
      have : content = [] := by
        simp only [List.length_take, lt_min_iff, not_and, not_lt, Nat.le_zero] at hpos
        have := hpos hb
        exact List.length_eq_zero.mp this
      simp [this, hashLoop_nil]

/-- Feeding a whole file through the chunked read loop hashes exactly its
content, for any positive blocksize. -/
theorem hash_file_spec (md5 : Content → String) (content : Content)
    (blocksize : Nat) (hb : 0 < blocksize) :
    hash_file md5 content blocksize = md5 content := by
  unfold hash_file
  rw [hashLoop_spec blocksize hb content.length content le_rfl]
  rfl

/-! ## Supporting lemmas: the group dictionary -/

/-- `duplicates[k]` on the insertion-ordered association list (`[]` when the
key is absent). -/
def valueOf (k : String) : List (String × List String) → List String
  | [] => []
  | g :: rest => if g.1 = k then g.2 else valueOf k rest

theorem valueOf_addFile (k h p : String) (g : List (String × List String)) :
    valueOf k (addFile g h p) =
      if h = k then valueOf k g ++ [p] else valueOf k g := by
  induction g with
  | nil =>
    by_cases hk : h = k <;> simp [addFile, valueOf, hk]
  | cons hd tl ih =>
    by_cases hh : hd.1 = h
    · have : addFile (hd :: tl) h p = (hd.1, hd.2 ++ [p]) :: tl := by
        cases hd with
        | mk k1 ps1 => simp [addFile, show k1 = h from hh]
      rw [this]
      by_cases hk : hd.1 = k
      · simp [valueOf, hk, hh ▸ hk, if_pos (hh ▸ hk : h = k) ]
      · have hk' : ¬ h = k := fun he => hk (hh.trans he)
        simp [valueOf, hk, hk']
    · have : addFile (hd :: tl) h p = hd :: addFile tl h p := by
        cases hd with
        | mk k1 ps1 =>
          simp only [addFile, if_neg (by simpa using hh)]
      rw [this]
      by_cases hk : hd.1 = k
      · have hk' : ¬ h = k := fun he => hh (hk.trans he.symm)
        simp [valueOf, hk, hk']
      · simp [valueOf, hk, ih]

theorem keys_addFile (h p : String) (g : List (String × List String)) :
    (addFile g h p).map Prod.fst =
      if h ∈ g.map Prod.fst then g.map Prod.fst else g.map Prod.fst ++ [h] := by
  induction g with
  | nil => simp [addFile]
  | cons hd tl ih =>
    by_cases hh : hd.1 = h
    · have : addFile (hd :: tl) h p = (hd.1, hd.2 ++ [p]) :: tl := by
        cases hd with
        | mk k1 ps1 => simp [addFile, show k1 = h from hh]
      rw [this]
      simp [hh]
    · have : addFile (hd :: tl) h p = hd :: addFile tl h p := by
        cases hd with
        | mk k1 ps1 => simp only [addFile, if_neg (by simpa using hh)]
      rw [this]
      have hne : ¬ h = hd.1 := fun he => hh he.symm
      by_cases hmem : h ∈ tl.map Prod.fst
      · simp [ih, hmem, hne]
      · simp [ih, hmem, hne]

theorem nonnil_addFile (h p : String) (g : List (String × List String))
    (hg : ∀ x ∈ g, x.2 ≠ []) :
    ∀ x ∈ addFile g h p, x.2 ≠ [] := by
  induction g with
  | nil =>
    intro x hx
    simp [addFile] at hx
    subst hx
    simp
  | cons hd tl ih =>
    by_cases hh : hd.1 = h
    · have : addFile (hd :: tl) h p = (hd.1, hd.2 ++ [p]) :: tl := by
        cases hd with
        | mk k1 ps1 => simp [addFile, show k1 = h from hh]
      rw [this]
      intro x hx
      rcases List.mem_cons.mp hx with hx | hx
      · subst hx; simp
      · exact hg x (List.mem_cons_of_mem _ hx)
    · have : addFile (hd :: tl) h p = hd :: addFile tl h p := by
        cases hd with
        | mk k1 ps1 => simp only [addFile, if_neg (by simpa using hh)]
      rw [this]
      intro x hx
      rcases List.mem_cons.mp hx with hx | hx
      · subst hx; exact hg x (List.mem_cons_self _ _)
      · exact ih (fun y hy => hg y (List.mem_cons_of_mem _ hy)) x hx

theorem count_flatten_addFile (h p q : String) (g : List (String × List String)) :
    ((addFile g h p).flatMap Prod.snd).count q =
      (g.flatMap Prod.snd).count q + if p = q then 1 else 0 := by
  induction g with
  | nil => by_cases hq : p = q <;> simp [addFile, hq, List.count_cons]
  | cons hd tl ih =>
    by_cases hh : hd.1 = h
    · have : addFile (hd :: tl) h p = (hd.1, hd.2 ++ [p]) :: tl := by
        cases hd with
        | mk k1 ps1 => simp [addFile, show k1 = h from hh]
      rw [this]
      simp only [List.flatMap_cons, List.count_append]
      by_cases hq : p = q <;> simp [hq, List.count_cons] <;> omega
    · have : addFile (hd :: tl) h p = hd :: addFile tl h p := by
        cases hd with
        | mk k1 ps1 => simp only [addFile, if_neg (by simpa using hh)]
      rw [this]
      simp only [List.flatMap_cons, List.count_append, ih]
      omega

theorem scan_valueOf (md5 : Content → String) :
    ∀ (files : List (String × Content)) (g : List (String × List String)) (k : String),
      valueOf k (files.foldl (fun groups f => addFile groups (hash_file md5 f.2 1024) f.1) g)
        = valueOf k g ++ (files.filter (fun f => hash_file md5 f.2 1024 == k)).map Prod.fst := by
  intro files
  induction files with
  | nil => intro g k; simp
  | cons f rest ih =>
    intro g k
    simp only [List.foldl_cons]
    rw [ih, valueOf_addFile]
    by_cases hk : hash_file md5 f.2 1024 = k
    · simp [List.filter_cons, hk]
    · simp [List.filter_cons, hk]

theorem scan_keys_nodup_aux (md5 : Content → String) :
    ∀ (files : List (String × Content)) (g : List (String × List String)),
      (g.map Prod.fst).Nodup →
      ((files.foldl (fun groups f => addFile groups (hash_file md5 f.2 1024) f.1) g).map
        Prod.fst).Nodup := by
  intro files
  induction files with
  | nil => intro g hg; simpa using hg
  | cons f rest ih =>
    intro g hg
    simp only [List.foldl_cons]
    apply ih
    rw [keys_addFile]
    by_cases hmem : hash_file md5 f.2 1024 ∈ g.map Prod.fst
    · simpa [hmem] using hg
    · simp only [if_neg hmem]
      simp [List.nodup_append, hg, hmem]

/-- The keys of the dict built by `find_duplicates` are pairwise distinct. -/
theorem scan_keys_nodup (md5 : Content → String) (files : List (String × Content)) :
    ((find_duplicates md5 files).map Prod.fst).Nodup := by
  unfold find_duplicates
  exact scan_keys_nodup_aux md5 files [] (by simp)

theorem scan_nonnil_aux (md5 : Content → String) :
    ∀ (files : List (String × Content)) (g : List (String × List String)),
      (∀ x ∈ g, x.2 ≠ []) →
      ∀ x ∈ files.foldl (fun groups f => addFile groups (hash_file md5 f.2 1024) f.1) g,
        x.2 ≠ [] := by
  intro files
  induction files with
  | nil => intro g hg; simpa using hg
  | cons f rest ih =>
    intro g hg
    simp only [List.foldl_cons]
    exact ih _ (nonnil_addFile _ _ _ hg)

/-- Every value of the dict built by `find_duplicates` is a non-empty list. -/
theorem scan_nonnil (md5 : Content → String) (files : List (String × Content)) :
    ∀ x ∈ find_duplicates md5 files, x.2 ≠ [] := by
  unfold find_duplicates
  exact scan_nonnil_aux md5 files [] (by simp)

theorem scan_count_aux (md5 : Content → String) :
    ∀ (files : List (String × Content)) (g : List (String × List String)) (q : String),
      ((files.foldl (fun groups f => addFile groups (hash_file md5 f.2 1024) f.1) g).flatMap
        Prod.snd).count q
        = (g.flatMap Prod.snd).count q + (files.map Prod.fst).count q := by
  intro files
  induction files with
  | nil => intro g q; simp
  | cons f rest ih =>
    intro g q
    simp only [List.foldl_cons, List.map_cons]
    rw [ih, count_flatten_addFile]
    rw [List.count_cons]
    by_cases hq : f.1 = q
    · simp only [hq, if_pos rfl, beq_self_eq_true, if_true]
      omega
    · simp only [if_neg hq, beq_iff_eq, hq, if_false]
      omega

/-- The paths stored in the dict built by `find_duplicates` are a permutation
of the scanned paths: every scanned path is in exactly one group. -/
theorem scan_perm (md5 : Content → String) (files : List (String × Content)) :
    List.Perm ((find_duplicates md5 files).flatMap Prod.snd) (files.map Prod.fst) := by
  refine List.perm_iff_count.2 fun q => ?_
  unfold find_duplicates
  rw [scan_count_aux]
  simp

/-- With pairwise-distinct scanned paths, each path occurs exactly once in
the dict. -/
theorem scan_flatten_nodup (md5 : Content → String) (files : List (String × Content))
    (hp : (files.map Prod.fst).Nodup) :
    ((find_duplicates md5 files).flatMap Prod.snd).Nodup :=
  (scan_perm md5 files).nodup_iff.2 hp

theorem mem_keys_of_valueOf_ne_nil (k : String) :
    ∀ g : List (String × List String), valueOf k g ≠ [] → k ∈ g.map Prod.fst := by
  intro g
  induction g with
  | nil => intro hg; simp [valueOf] at hg
  | cons hd tl ih =>
    intro hg
    by_cases hk : hd.1 = k
    · simp [hk]
    · simp only [valueOf, if_neg hk] at hg
      simp [ih hg]

theorem valueOf_ne_nil_of_mem_keys (k : String) :
    ∀ g : List (String × List String), (∀ x ∈ g, x.2 ≠ []) →
      k ∈ g.map Prod.fst → valueOf k g ≠ [] := by
  intro g
  induction g with
  | nil => intro _ hk; simp at hk
  | cons hd tl ih =>
    intro hnn hk
    by_cases hh : hd.1 = k
    · simp only [valueOf, if_pos hh]
      exact hnn hd (List.mem_cons_self _ _)
    · simp only [valueOf, if_neg hh]
      apply ih (fun y hy => hnn y (List.mem_cons_of_mem _ hy))
      simp only [List.map_cons, List.mem_cons] at hk
      rcases hk with hk' | hk'
      · exact absurd hk'.symm hh
      · exact hk'

theorem valueOf_of_pair_mem (k : String) (ps : List String) :
    ∀ g : List (String × List String), (g.map Prod.fst).Nodup →
      (k, ps) ∈ g → valueOf k g = ps := by
  intro g
  induction g with
  | nil => intro _ hm; cases hm
  | cons hd tl ih =>
    intro hnd hm
    rcases List.mem_cons.mp hm with hm | hm
    · rw [← hm]
      simp [valueOf]
    · by_cases hh : hd.1 = k
      · exfalso
        have hk : k ∈ tl.map Prod.fst := by
          exact List.mem_map.2 ⟨(k, ps), hm, rfl⟩
        simp only [List.map_cons, List.nodup_cons] at hnd
        exact hnd.1 (hh ▸ hk)
      · simp only [valueOf, if_neg hh]
        exact ih (by simpa using (List.nodup_cons.mp (by simpa using hnd)).2) hm

theorem pair_mem_of_mem_keys (k : String) :
    ∀ g : List (String × List String), k ∈ g.map Prod.fst →
      (k, valueOf k g) ∈ g := by
  intro g
  induction g with
  | nil => intro hk; simp at hk
  | cons hd tl ih =>
    intro hk
    by_cases hh : hd.1 = k
    · simp only [valueOf, if_pos hh]
      have hd_eq : hd = (k, hd.2) := by
        cases hd with
        | mk k1 ps1 => simpa using hh
      rw [← hd_eq]
      exact List.mem_cons_self _ _
    · simp only [valueOf, if_neg hh]
      apply List.mem_cons_of_mem
      apply ih
      simp only [List.map_cons, List.mem_cons] at hk
      rcases hk with hk' | hk'
      · exact absurd hk'.symm hh
      · exact hk'

/-! ## Supporting lemmas: deletion -/

theorem delete_files_foldl :
    ∀ (gs : List (String × List String)) (d : List String),
      gs.foldl (fun deleted g => if 1 < g.2.length then deleted ++ g.2.drop 1 else deleted) d
        = d ++ plannedDeletions gs := by
  intro gs
  induction gs with
  | nil => intro d; simp [plannedDeletions]
  | cons g gs ih =>
    intro d
    simp only [List.foldl_cons, plannedDeletions, List.flatMap_cons]
    by_cases hg : 1 < g.2.length
    · simp only [if_pos hg]
      rw [ih]
      simp [plannedDeletions, List.append_assoc]
    · simp only [if_neg hg]
      rw [ih]
      simp [plannedDeletions]

/-- The list `delete_files` returns is exactly the non-first members of the
multi-member groups, in iteration order. -/
theorem delete_files_eq_planned (gs : List (String × List String)) :
    delete_files gs = plannedDeletions gs := by
  unfold delete_files
  rw [delete_files_foldl]
  simp

theorem plannedDeletions_sublist (gs : List (String × List String)) :
    (plannedDeletions gs).Sublist (gs.flatMap Prod.snd) := by
  induction gs with
  | nil => simp [plannedDeletions]
  | cons g gs ih =>
    simp only [plannedDeletions, List.flatMap_cons] at *
    apply List.Sublist.append _ ih
    by_cases hg : 1 < g.2.length
    · simp only [if_pos hg]
      exact List.drop_sublist 1 g.2
    · simp only [if_neg hg]
      exact List.nil_sublist _

theorem deleteSeq_append :
    ∀ (xs ys d fs : List String),
      deleteSeq (xs ++ ys) d fs =
        match deleteSeq xs d fs with
        | Except.ok (d', fs') => deleteSeq ys d' fs'
        | Except.error e => Except.error e := by
  intro xs
  induction xs with
  | nil => intro ys d fs; simp [deleteSeq]
  | cons x xs ih =>
    intro ys d fs
    simp only [List.cons_append, deleteSeq]
    cases hor : osRemove fs x with
    | ok fs' => exact ih ys (d ++ [x]) fs'
    | error q => rfl

theorem deleteGroupsLoop_eq :
    ∀ (gs : List (String × List String)) (d fs : List String),
      deleteGroupsLoop gs d fs = deleteSeq (plannedDeletions gs) d fs := by
  intro gs
  induction gs with
  | nil => intro d fs; simp [deleteGroupsLoop, plannedDeletions, deleteSeq]
  | cons g gs ih =>
    intro d fs
    simp only [deleteGroupsLoop, plannedDeletions, List.flatMap_cons]
    by_cases hg : 1 < g.2.length
    · simp only [if_pos hg]
      rw [show (gs.flatMap fun g => if 1 < g.2.length then g.2.drop 1 else []) =
            plannedDeletions gs from rfl]
      rw [deleteSeq_append]
      cases hseq : deleteSeq (g.2.drop 1) d fs with
      | ok r =>
        cases r with
        | mk d' fs' => simp only [ih]
      | error e => rfl
    · simp only [if_neg hg, List.nil_append]
      exact ih d fs

/-- `delete_filesFS` performs the sequential removal of the planned
deletions. -/
theorem delete_filesFS_eq (gs : List (String × List String)) (fs : List String) :
    delete_filesFS gs fs = deleteSeq (plannedDeletions gs) [] fs :=
  deleteGroupsLoop_eq gs [] fs

theorem erase_filter_step (fs xs : List String) (x : String) (hfs : fs.Nodup) :
    (fs.erase x).filter (fun q => decide (q ∉ xs))
      = fs.filter (fun q => decide (q ∉ x :: xs)) := by
  rw [hfs.erase_eq_filter, List.filter_filter]
  apply List.filter_congr
  intro a _
  by_cases h1 : a = x <;> by_cases h2 : a ∈ xs <;>
    simp [h1, h2, List.mem_cons]

theorem deleteSeq_ok :
    ∀ (xs d fs : List String), fs.Nodup → xs.Nodup → (∀ p ∈ xs, p ∈ fs) →
      deleteSeq xs d fs = Except.ok (d ++ xs, fs.filter (fun q => decide (q ∉ xs))) := by
  intro xs
  induction xs with
  | nil =>
    intro d fs _ _ _
    simp [deleteSeq]
  | cons x xs ih =>
    intro d fs hfs hnd hsub
    have hx : x ∈ fs := hsub x (List.mem_cons_self _ _)
    simp only [deleteSeq, osRemove, if_pos hx]
    have hnd' := List.nodup_cons.mp hnd
    rw [ih (d ++ [x]) (fs.erase x) (hfs.erase x) hnd'.2]
    · rw [erase_filter_step fs xs x hfs]
      simp
    · intro p hp
      have hpx : p ≠ x := fun he => hnd'.1 (he ▸ hp)
      exact (List.mem_erase_of_ne hpx).2 (hsub p (List.mem_cons_of_mem _ hp))

theorem deleteSeq_error :
    ∀ (xs d fs d₀ fs₀ : List String) (q : String), fs.Nodup →
      deleteSeq xs d fs = Except.error (d₀, fs₀, q) →
      ∃ pre rest, xs = pre ++ q :: rest ∧ d₀ = d ++ pre ∧
        fs₀ = fs.filter (fun r => decide (r ∉ pre)) ∧ q ∉ fs₀ := by
  intro xs
  induction xs with
  | nil =>
    intro d fs d₀ fs₀ q _ h
    simp [deleteSeq] at h
  | cons x xs ih =>
    intro d fs d₀ fs₀ q hfs h
    by_cases hx : x ∈ fs
    · simp only [deleteSeq, osRemove, if_pos hx] at h
      obtain ⟨pre', rest, hxs, hd₀, hfs₀, hq⟩ :=
        ih (d ++ [x]) (fs.erase x) d₀ fs₀ q (hfs.erase x) h
      refine ⟨x :: pre', rest, ?_, ?_, ?_, hq⟩
      · simp [hxs]
      · simp [hd₀]
      · rw [hfs₀, erase_filter_step fs pre' x hfs]
    · simp only [deleteSeq, osRemove, if_neg hx] at h
      obtain ⟨hd, hfs', hq⟩ : d = d₀ ∧ fs = fs₀ ∧ x = q := by
        cases h
        exact ⟨rfl, rfl, rfl⟩
      refine ⟨[], xs, by simp [hq], by simp [hd], by simp [hfs'], ?_⟩
      rw [← hfs', ← hq]
      exact hx

/-! ## Supporting lemmas: the deletion plan versus the groups -/

theorem mem_planned_of_mem_drop (gs : List (String × List String))
    (g : String × List String) (hg : g ∈ gs) (hlen : 1 < g.2.length)
    (q : String) (hq : q ∈ g.2.drop 1) : q ∈ plannedDeletions gs := by
  unfold plannedDeletions
  exact List.mem_flatMap.2 ⟨g, hg, by simpa [if_pos hlen] using hq⟩

theorem planned_disjoint_cases (gs : List (String × List String))
    (hflat : (gs.flatMap Prod.snd).Nodup)
    (g : String × List String) (hg : g ∈ gs)
    (q : String) (hqg : q ∈ g.2) (hqp : q ∈ plannedDeletions gs) :
    q ∈ g.2.drop 1 := by
  obtain ⟨g', hg', hq'⟩ := List.mem_flatMap.1 hqp
  have hlen' : 1 < g'.2.length := by
    by_contra hcon
    rw [if_neg hcon] at hq'
    cases hq'
  rw [if_pos hlen'] at hq'
  obtain ⟨hnodups, hpair⟩ := List.nodup_flatMap.1 hflat
  by_cases heq : g.2 = g'.2
  · rw [heq]
    exact hq'
  · exfalso
    have hne : g ≠ g' := fun he => heq (he ▸ rfl)
    have hsymm : Symmetric (List.Disjoint on (Prod.snd :
        String × List String → List String)) := fun a b hd => hd.symm
    have hdisj := hpair.forall hsymm hg hg' hne
    exact hdisj hqg (List.mem_of_mem_drop hq')

/-- The first member of any group of the mapping is never scheduled for
deletion, provided no path occurs twice across the mapping. -/
theorem head_not_mem_planned (gs : List (String × List String))
    (hflat : (gs.flatMap Prod.snd).Nodup)
    (g : String × List String) (hg : g ∈ gs)
    (h : String) (t : List String) (hgs : g.2 = h :: t) :
    h ∉ plannedDeletions gs := by
  intro hmem
  have hdrop : h ∈ g.2.drop 1 :=
    planned_disjoint_cases gs hflat g hg h (by simp [hgs]) hmem
  rw [hgs] at hdrop
  simp only [List.drop_one, List.tail_cons] at hdrop
  have hnodups := (List.nodup_flatMap.1 hflat).1
  have := hnodups g hg
  rw [hgs] at this
  exact (List.nodup_cons.mp this).1 hdrop

/-- Members of size-one groups are never scheduled for deletion. -/
theorem singleton_not_mem_planned (gs : List (String × List String))
    (hflat : (gs.flatMap Prod.snd).Nodup)
    (g : String × List String) (hg : g ∈ gs) (hlen : g.2.length ≤ 1)
    (q : String) (hq : q ∈ g.2) : q ∉ plannedDeletions gs := by
  intro hmem
  have hdrop : q ∈ g.2.drop 1 := planned_disjoint_cases gs hflat g hg q hq hmem
  cases hcase : g.2 with
  | nil => rw [hcase] at hq; cases hq
  | cons x xs =>
    rw [hcase] at hlen hdrop
    have hxs : xs = [] := by
      cases xs with
      | nil => rfl
      | cons y ys => simp only [List.length_cons] at hlen; omega
    rw [hxs] at hdrop
    simp at hdrop

theorem planned_nil_of_short (gs : List (String × List String))
    (hshort : ∀ g ∈ gs, ¬ 1 < g.2.length) : plannedDeletions gs = [] := by
  induction gs with
  | nil => rfl
  | cons g gs ih =>
    simp only [plannedDeletions, List.flatMap_cons]
    rw [if_neg (hshort g (List.mem_cons_self _ _))]
    simpa [plannedDeletions] using
      ih fun g' hg' => hshort g' (List.mem_cons_of_mem _ hg')

/-! ## Supporting lemmas: small list facts -/

theorem head?_of_not_mem_drop (l : List String) (a : String)
    (hmem : a ∈ l) (hnd : a ∉ l.drop 1) : l.head? = some a := by
  cases l with
  | nil => cases hmem
  | cons x xs => simp_all [List.mem_cons]

theorem eq_of_len_le_one (l : List String) (hlen : l.length ≤ 1)
    (a b : String) (ha : a ∈ l) (hb : b ∈ l) : a = b := by
  cases l with
  | nil => cases ha
  | cons x xs =>
    have hxs : xs = [] := by
      cases xs with
      | nil => rfl
      | cons y ys => simp only [List.length_cons] at hlen; omega
    subst hxs
    simp only [List.mem_singleton] at ha hb
    rw [ha, hb]

theorem filter_key_length_le_one {α : Type} (f : α → String) (k : String) :
    ∀ l : List α, (l.map f).Nodup →
      (l.filter (fun x => f x == k)).length ≤ 1 := by
  intro l
  induction l with
  | nil => intro _; simp
  | cons x xs ih =>
    intro hnd
    simp only [List.map_cons, List.nodup_cons] at hnd
    rw [List.filter_cons]
    by_cases hx : f x = k
    · simp only [hx, beq_self_eq_true, if_true, List.length_cons]
      have : xs.filter (fun y => f y == k) = [] := by
        rw [List.filter_eq_nil_iff]
        intro y hy hyk
        apply hnd.1
        rw [beq_iff_eq] at hyk
        exact List.mem_map.2 ⟨y, hy, by rw [hyk, hx]⟩
      rw [this]
      simp
    · simp only [beq_iff_eq, hx, if_false]
      exact ih hnd.2

/-! ## Supporting lemmas: group contents and counting -/

theorem find_duplicates_valueOf (md5 : Content → String)
    (files : List (String × Content)) (k : String) :
    valueOf k (find_duplicates md5 files)
      = (files.filter (fun f => hash_file md5 f.2 1024 == k)).map Prod.fst := by
  unfold find_duplicates
  rw [scan_valueOf]
  simp [valueOf]

theorem group_eq_valueOf (md5 : Content → String) (files : List (String × Content))
    (g : String × List String) (hg : g ∈ find_duplicates md5 files) :
    g.2 = (files.filter (fun f => hash_file md5 f.2 1024 == g.1)).map Prod.fst := by
  rw [← find_duplicates_valueOf]
  exact (valueOf_of_pair_mem g.1 g.2 (find_duplicates md5 files)
    (scan_keys_nodup md5 files) (by simpa using hg)).symm

theorem planned_length (gs : List (String × List String))
    (hnn : ∀ g ∈ gs, g.2 ≠ []) :
    (plannedDeletions gs).length + gs.length = total_scanned gs := by
  induction gs with
  | nil => simp [plannedDeletions, total_scanned]
  | cons g gs ih =>
    have hpos : 0 < g.2.length :=
      List.length_pos.2 (hnn g (List.mem_cons_self _ _))
    have ih' := ih fun g' hg' => hnn g' (List.mem_cons_of_mem _ hg')
    have hplan : plannedDeletions (g :: gs)
        = (if 1 < g.2.length then g.2.drop 1 else []) ++ plannedDeletions gs := by
      simp [plannedDeletions]
    have htot : total_scanned (g :: gs) = g.2.length + total_scanned gs := by
      simp [total_scanned]
    rw [hplan, htot, List.length_append, List.length_cons]
    by_cases hlen : 1 < g.2.length
    · rw [if_pos hlen]
      simp only [List.length_drop]
      omega
    · rw [if_neg hlen]
      simp only [List.length_nil]
      omega

theorem delete_count (gs : List (String × List String))
    (hnn : ∀ g ∈ gs, g.2 ≠ []) :
    (delete_files gs).length + gs.length = total_scanned gs := by
  rw [delete_files_eq_planned]
  exact planned_length gs hnn

theorem keys_toFinset (md5 : Content → String) (files : List (String × Content)) :
    ((find_duplicates md5 files).map Prod.fst).toFinset
      = (files.map (fun f => hash_file md5 f.2 1024)).toFinset := by
  ext k
  simp only [List.mem_toFinset]
  constructor
  · intro hk
    have hval := valueOf_ne_nil_of_mem_keys k (find_duplicates md5 files)
      (scan_nonnil md5 files) hk
    rw [find_duplicates_valueOf] at hval
    have : files.filter (fun f => hash_file md5 f.2 1024 == k) ≠ [] := by
      intro hnil
      rw [hnil] at hval
      exact hval rfl
    obtain ⟨f, hf⟩ := List.exists_mem_of_ne_nil _ this
    have := List.mem_filter.1 hf
    rw [beq_iff_eq] at this
    exact List.mem_map.2 ⟨f, this.1, this.2⟩
  · intro hk
    obtain ⟨f, hfm, hfk⟩ := List.mem_map.1 hk
    apply mem_keys_of_valueOf_ne_nil
    rw [find_duplicates_valueOf]
    intro hnil
    have : f.1 ∈ ((files.filter (fun f => hash_file md5 f.2 1024 == k)).map Prod.fst) :=
      List.mem_map.2 ⟨f, List.mem_filter.2 ⟨hfm, by simp [hfk]⟩, rfl⟩
    rw [hnil] at this
    cases this

/-- The number of groups equals the number of distinct digests among the
scanned files. -/
theorem groups_length_eq_card (md5 : Content → String) (files : List (String × Content)) :
    (find_duplicates md5 files).length
      = (files.map (fun f => hash_file md5 f.2 1024)).toFinset.card := by
  rw [← keys_toFinset, List.toFinset_card_of_nodup (scan_keys_nodup md5 files),
    List.length_map]

/-! ## Supporting lemmas: idempotence -/

theorem afterRun_digest_inj (md5 : Content → String) (files : List (String × Content))
    (hp : (files.map Prod.fst).Nodup) :
    ∀ f1 ∈ afterRun md5 files, ∀ f2 ∈ afterRun md5 files,
      hash_file md5 f1.2 1024 = hash_file md5 f2.2 1024 → f1 = f2 := by
  intro f1 hf1 f2 hf2 heq
  have hm1 := List.mem_filter.1 hf1
  have hm2 := List.mem_filter.1 hf2
  have hf1files : f1 ∈ files := hm1.1
  have hf2files : f2 ∈ files := hm2.1
  have hs1 : f1.1 ∉ delete_files (find_duplicates md5 files) :=
    of_decide_eq_true hm1.2
  have hs2 : f2.1 ∉ delete_files (find_duplicates md5 files) :=
    of_decide_eq_true hm2.2
  set k := hash_file md5 f1.2 1024 with hk
  set ps := valueOf k (find_duplicates md5 files) with hps
  have hmem1 : f1.1 ∈ ps := by
    rw [hps, find_duplicates_valueOf]
    exact List.mem_map.2 ⟨f1, List.mem_filter.2 ⟨hf1files, by simp [hk]⟩, rfl⟩
  have hmem2 : f2.1 ∈ ps := by
    rw [hps, find_duplicates_valueOf]
    exact List.mem_map.2 ⟨f2, List.mem_filter.2 ⟨hf2files, by simp [← heq]⟩, rfl⟩
  have hpath : f1.1 = f2.1 := by
    by_cases hlen : 1 < ps.length
    · have hkkeys : k ∈ (find_duplicates md5 files).map Prod.fst := by
        apply mem_keys_of_valueOf_ne_nil
        rw [← hps]
        exact fun hnil => by rw [hnil] at hmem1; cases hmem1
      have hpair : (k, ps) ∈ find_duplicates md5 files := by
        rw [hps]
        exact pair_mem_of_mem_keys k (find_duplicates md5 files) hkkeys
      have hnd1 : f1.1 ∉ ps.drop 1 := by
        intro hdrop
        apply hs1
        rw [delete_files_eq_planned]
        exact mem_planned_of_mem_drop _ (k, ps) hpair hlen f1.1 hdrop
      have hnd2 : f2.1 ∉ ps.drop 1 := by
        intro hdrop
        apply hs2
        rw [delete_files_eq_planned]
        exact mem_planned_of_mem_drop _ (k, ps) hpair hlen f2.1 hdrop
      have h1 := head?_of_not_mem_drop ps f1.1 hmem1 hnd1
      have h2 := head?_of_not_mem_drop ps f2.1 hmem2 hnd2
      rw [h1] at h2
      exact Option.some_injective _ h2
    · exact eq_of_len_le_one ps (Nat.le_of_not_lt hlen) f1.1 f2.1 hmem1 hmem2
  exact List.inj_on_of_nodup_map hp (List.mem_of_mem_filter hf1)
    (List.mem_of_mem_filter hf2) hpath

theorem afterRun_paths_nodup (md5 : Content → String) (files : List (String × Content))
    (hp : (files.map Prod.fst).Nodup) :
    ((afterRun md5 files).map Prod.fst).Nodup :=
  hp.sublist (List.Sublist.map Prod.fst (List.filter_sublist files))

theorem afterRun_nodup (md5 : Content → String) (files : List (String × Content))
    (hp : (files.map Prod.fst).Nodup) : (afterRun md5 files).Nodup :=
  List.Nodup.of_map Prod.fst (afterRun_paths_nodup md5 files hp)

theorem afterRun_digests_nodup (md5 : Content → String) (files : List (String × Content))
    (hp : (files.map Prod.fst).Nodup) :
    ((afterRun md5 files).map (fun f => hash_file md5 f.2 1024)).Nodup :=
  (afterRun_nodup md5 files hp).map_on (afterRun_digest_inj md5 files hp)

/-- When the scanned files have pairwise-distinct digests, every group of the
mapping has at most one member. -/
theorem scan_groups_short (md5 : Content → String) (files : List (String × Content))
    (hd : (files.map (fun f => hash_file md5 f.2 1024)).Nodup) :
    ∀ g ∈ find_duplicates md5 files, g.2.length ≤ 1 := by
  intro g hg
  rw [group_eq_valueOf md5 files g hg, List.length_map]
  exact filter_key_length_le_one (fun f => hash_file md5 f.2 1024) g.1 files hd

/-! ## Supporting lemmas: the fallible scan -/

theorem findDuplicatesLoop_ok (md5 : Content → String) :
    ∀ (files : List (String × Content)) (groups : List (String × List String)),
      findDuplicatesLoop md5 (files.map (fun f => (f.1, some f.2))) groups
        = Except.ok (files.foldl
            (fun groups f => addFile groups (hash_file md5 f.2 1024) f.1) groups) := by
  intro files
  induction files with
  | nil => intro groups; rfl
  | cons f rest ih =>
    intro groups
    simp only [List.map_cons, List.foldl_cons, findDuplicatesLoop, hash_fileE]
    exact ih _

/-- On a tree with no unreadable file, the fallible scan succeeds and returns
exactly the group mapping of `find_duplicates`. -/
theorem find_duplicatesE_ok (md5 : Content → String) (files : List (String × Content)) :
    find_duplicatesE md5 (files.map (fun f => (f.1, some f.2)))
      = Except.ok (find_duplicates md5 files) :=
  findDuplicatesLoop_ok md5 files []

theorem findDuplicatesLoop_error (md5 : Content → String) :
    ∀ (good : List (String × Option Content)) (bad : String × Option Content)
      (rest : List (String × Option Content)) (groups : List (String × List String)),
      (∀ f ∈ good, (Prod.snd f).isSome = true) → bad.2 = none →
      findDuplicatesLoop md5 (good ++ bad :: rest) groups = Except.error () := by
  intro good
  induction good with
  | nil =>
    intro bad rest groups _ hbad
    simp only [List.nil_append, findDuplicatesLoop, hbad, hash_fileE]
  | cons f good ih =>
    intro bad rest groups hgood hbad
    obtain ⟨c, hc⟩ := Option.isSome_iff_exists.1 (hgood f (List.mem_cons_self _ _))
    simp only [List.cons_append, findDuplicatesLoop, hc, hash_fileE]
    exact ih bad rest _ (fun f' hf' => hgood f' (List.mem_cons_of_mem _ hf')) hbad

theorem isAbs_append (s t : String) (h : isAbs s = true) : isAbs (s ++ t) = true := by
  unfold isAbs at *
  rw [String.data_append]
  cases hd : s.data with
  | nil => rw [hd] at h; simp at h
  | cons c cs =>
    rw [hd] at h
    simpa using (by simpa using h : c = '/')

theorem total_scanned_eq_files_length (md5 : Content → String)
    (files : List (String × Content)) :
    total_scanned (find_duplicates md5 files) = files.length := by
  have hlen := (scan_perm md5 files).length_eq
  rw [List.length_flatMap] at hlen
  simpa [total_scanned, Function.comp, List.length_map] using hlen

theorem mainCheck_usage (cwd : String) (pathExists isDir : String → Bool) :
    ∀ argv : List String, argv.length ≠ 4 →
      mainCheck cwd pathExists isDir argv = MainExit.usageError := by
  intro argv hlen
  match argv with
  | [] => rfl
  | [_] => rfl
  | [_, _] => rfl
  | [_, _, _] => rfl
  | [_, _, _, _] => exact absurd rfl hlen
  | _ :: _ :: _ :: _ :: _ :: _ => rfl

/-! ## Concrete instances used by the witnesses -/

/-- A concrete stand-in for the md5 hexdigest function, used to evaluate the
embedding on concrete inputs. -/
def md5Fix : Content → String :=
  fun c => if c = [1] then "d1" else if c = [2] then "d2" else "d0"

/-- A concrete walk: two files with identical content, one distinct. -/
def filesFix : List (String × Content) := [("a", [1]), ("b", [1]), ("c", [2])]

/-- A concrete group mapping with one duplicate pair and one singleton. -/
def groupsFix : List (String × List String) := [("d1", ["a", "b"]), ("d2", ["c"])]

/-- The paths existing on disk for the `groupsFix` run. -/
def fsFix : List String := ["a", "b", "c"]

/-- A group whose member `"b"` has vanished between scan and delete, while
the later duplicate `"c"` still exists. -/
def dupsFailFix : List (String × List String) := [("d1", ["a", "b", "c"])]

/-- The paths existing on disk for the `dupsFailFix` run: `"b"` is gone. -/
def fsFailFix : List String := ["a", "c"]

/-- A walk in which the second file has become unreadable. -/
def filesUnreadableFix : List (String × Option Content) :=
  [("a", some [1]), ("b", none), ("c", some [2])]

/-! ## Claim theorems -/

/-- C1: For every duplicate-group mapping (with the scan invariants: each
path listed once across the mapping, and every listed path existing on
disk), `delete_files` keeps exactly the first member of every group with
more than one member, deletes every other member, leaves size-one groups
untouched, and returns exactly the non-first members of the multi-member
groups, in order. -/
theorem claim1_delete_files_spec (groups : List (String × List String))
    (fs : List String) (hfs : fs.Nodup)
    (hflat : (groups.flatMap Prod.snd).Nodup)
    (hsub : ∀ p ∈ groups.flatMap Prod.snd, p ∈ fs) :
    delete_filesFS groups fs
        = Except.ok (plannedDeletions groups,
            fs.filter (fun q => decide (q ∉ plannedDeletions groups))) ∧
    delete_files groups = plannedDeletions groups ∧
    (∀ g ∈ groups, ∀ h t, g.2 = h :: t → h ∉ plannedDeletions groups) ∧
    (∀ g ∈ groups, 1 < g.2.length → ∀ q ∈ g.2.drop 1, q ∈ plannedDeletions groups) ∧
    (∀ g ∈ groups, g.2.length ≤ 1 → ∀ q ∈ g.2, q ∉ plannedDeletions groups) := by
  have hplan_nodup : (plannedDeletions groups).Nodup :=
    hflat.sublist (plannedDeletions_sublist groups)
  have hplan_sub : ∀ p ∈ plannedDeletions groups, p ∈ fs := fun p hp =>
    hsub p ((plannedDeletions_sublist groups).subset hp)
  refine ⟨?_, delete_files_eq_planned groups, ?_, ?_, ?_⟩
  · rw [delete_filesFS_eq]
    simpa using deleteSeq_ok (plannedDeletions groups) [] fs hfs hplan_nodup hplan_sub
  · exact fun g hg h t hgs => head_not_mem_planned groups hflat g hg h t hgs
  · exact fun g hg hlen q hq => mem_planned_of_mem_drop groups g hg hlen q hq
  · exact fun g hg hlen q hq => singleton_not_mem_planned groups hflat g hg hlen q hq

/-- Witness for C1 on a concrete mapping: the duplicate `"b"` is deleted,
the survivors `"a"` and `"c"` remain. -/
theorem claim1_witness :
    delete_filesFS groupsFix fsFix
        = Except.ok (plannedDeletions groupsFix,
            fsFix.filter (fun q => decide (q ∉ plannedDeletions groupsFix))) ∧
    plannedDeletions groupsFix = ["b"] ∧
    fsFix.filter (fun q => decide (q ∉ plannedDeletions groupsFix)) = ["a", "c"] :=
  ⟨(claim1_delete_files_spec groupsFix fsFix (by decide) (by decide) (by decide)).1,
    by decide, by decide⟩

/-- C2 counterexample: with groups `{d1 ↦ [a, b, c]}` and only `a`, `c` on
disk, deleting `b` raises; contrary to the claim, no `FailedToDelete`
outcome is recorded and the batch does not continue: `delete_files`
propagates the exception at once, with the remaining duplicate `c` still on
disk and never attempted. -/
theorem claim2_counterexample :
    delete_filesFS dupsFailFix fsFailFix
      = Except.error ([], ["a", "c"], "b") := by
  rfl

/-- C2 as amended: when an `os.remove` fails, `delete_files` propagates the
exception — the files already deleted stay deleted and nothing else is
removed, the failing path is gone from disk, and the rest of the deletion
batch (everything after the failing path) is never attempted. -/
theorem claim2_failure_propagates (dups : List (String × List String))
    (fs deleted fsAtFail : List String) (p : String) (hfs : fs.Nodup)
    (h : delete_filesFS dups fs = Except.error (deleted, fsAtFail, p)) :
    fsAtFail = fs.filter (fun q => decide (q ∉ deleted)) ∧
    p ∉ fsAtFail ∧
    ∃ rest, plannedDeletions dups = deleted ++ p :: rest := by
  rw [delete_filesFS_eq] at h
  obtain ⟨pre, rest, hplan, hd, hfs0, hq⟩ :=
    deleteSeq_error (plannedDeletions dups) [] fs deleted fsAtFail p hfs h
  have hpre : pre = deleted := by simpa using hd.symm
  subst hpre
  exact ⟨hfs0, hq, rest, hplan⟩

/-- Witness for the amended C2 at the concrete failing run. -/
theorem claim2_witness :
    (["a", "c"] : List String)
        = fsFailFix.filter (fun q => decide (q ∉ ([] : List String))) ∧
    "b" ∉ (["a", "c"] : List String) ∧
    ∃ rest, plannedDeletions dupsFailFix = [] ++ "b" :: rest :=
  claim2_failure_propagates dupsFailFix fsFailFix [] ["a", "c"] "b"
    (by decide) (by rfl)

/-- C3 counterexample: scanning a walk whose second file is unreadable, the
`IOError` from `hash_file` propagates out of `find_duplicates`: no group
mapping is produced at all — contrary to the claim, the unreadable file is
not recorded and excluded, and the scan does not continue over `"c"`. -/
theorem claim3_counterexample :
    find_duplicatesE md5Fix filesUnreadableFix = Except.error () := by
  rfl

/-- C3 as amended: if hashing any file raises an `IOError` during the scan,
the exception propagates out of `find_duplicates`: the whole scan aborts and
no group mapping is returned (the files after the failing one are never
visited). -/
theorem claim3_hash_error_aborts (md5 : Content → String)
    (good : List (String × Option Content)) (bad : String × Option Content)
    (rest : List (String × Option Content))
    (hgood : ∀ f ∈ good, (Prod.snd f).isSome = true) (hbad : bad.2 = none) :
    find_duplicatesE md5 (good ++ bad :: rest) = Except.error () :=
  findDuplicatesLoop_error md5 good bad rest [] hgood hbad

/-- Witness for the amended C3 at a concrete walk. -/
theorem claim3_witness :
    find_duplicatesE md5Fix ([(("a" : String), some ([1] : Content))]
        ++ ("b", none) :: [("c", some [2])]) = Except.error () :=
  claim3_hash_error_aborts md5Fix [("a", some [1])] ("b", none) [("c", some [2])]
    (by decide) rfl

/-- C4: the reported `total_scanned` is the sum of the sizes of all groups,
singletons included (equivalently, the number of scanned files), and the
deletion outcome of the run is a function of the group mapping alone —
`delete_files` never receives `total_scanned`. -/
theorem claim4_total_scanned (md5 : Content → String)
    (files : List (String × Content)) (connected : Bool) (ts ct : String) :
    (runOnce md5 files connected ts ct).totalScanned
        = ((find_duplicates md5 files).map (fun g => g.2.length)).sum ∧
    (runOnce md5 files connected ts ct).totalScanned = files.length ∧
    (runOnce md5 files connected ts ct).deleted
        = delete_files (find_duplicates md5 files) := by
  refine ⟨rfl, ?_, rfl⟩
  show total_scanned (find_duplicates md5 files) = files.length
  exact total_scanned_eq_files_length md5 files

/-- The result of the `i`-th invocation of `hash_file` on an empty file (the
function is pure, so the call index is a phantom). -/
def hashCalls (md5 : Content → String) (blocksize : Nat) (call : Nat) : String :=
  hash_file md5 [] blocksize

/-- C5: hashing a zero-byte file feeds nothing to the accumulator, so the
result is the digest of empty input — produced by the generic chunk loop
with no special-casing — and every invocation returns that same digest. -/
theorem claim5_empty_hash (md5 : Content → String) (blocksize i j : Nat) :
    hash_file md5 [] blocksize = md5 [] ∧
    hashCalls md5 blocksize i = md5 [] ∧
    hashCalls md5 blocksize i = hashCalls md5 blocksize j := by
  refine ⟨?_, ?_, rfl⟩ <;>
    simp [hashCalls, hash_file, hashLoop_nil]

/-- C6: deduplication is idempotent.  After one scan-and-delete cycle on a
tree with pairwise-distinct paths, a second scan finds no group with more
than one member, so the second deletion pass deletes nothing. -/
theorem claim6_idempotent (md5 : Content → String)
    (files : List (String × Content)) (hp : (files.map Prod.fst).Nodup) :
    (∀ g ∈ find_duplicates md5 (afterRun md5 files), g.2.length ≤ 1) ∧
    delete_files (find_duplicates md5 (afterRun md5 files)) = [] := by
  have hshort := scan_groups_short md5 (afterRun md5 files)
    (afterRun_digests_nodup md5 files hp)
  refine ⟨hshort, ?_⟩
  rw [delete_files_eq_planned]
  exact planned_nil_of_short _ fun g hg => Nat.not_lt.2 (hshort g hg)

/-- Witness for C6 on the concrete tree `a = b ≠ c`. -/
theorem claim6_witness :
    (filesFix.map Prod.fst).Nodup ∧
    delete_files (find_duplicates md5Fix (afterRun md5Fix filesFix)) = [] :=
  ⟨by decide, (claim6_idempotent md5Fix filesFix (by decide)).2⟩

/-- C7: the log written by a run is plain text with line 1 the title, line 2
the creation timestamp, line 3 a separator, then exactly the successfully
removed paths in deletion order; it is produced fresh by `create_log` under
the fixed subdirectory `"Marvellous"` with a name derived from the
second-resolution timestamp `time.strftime('%Y%m%d%H%M%S')`, and the run
appends it to the on-disk logs without touching earlier ones. -/
theorem claim7_log_format (md5 : Content → String)
    (files : List (String × Content)) (connected : Bool) (ts ct : String)
    (logs : List (String × List String)) :
    (runOnce md5 files connected ts ct).logLines.head?
        = some "Duplicate File Removal Log" ∧
    (runOnce md5 files connected ts ct).logLines.get? 1
        = some ("Log created at: " ++ ct) ∧
    (runOnce md5 files connected ts ct).logLines.get? 2 = some sepLine ∧
    (runOnce md5 files connected ts ct).logLines.drop 3
        = (runOnce md5 files connected ts ct).deleted ∧
    (runOnce md5 files connected ts ct).logLines
        = (create_log (delete_files (find_duplicates md5 files))
            "Marvellous" ts ct).2 ∧
    (runOnce md5 files connected ts ct).logPath
        = "Marvellous" ++ "/" ++ ("Log_" ++ ts ++ ".log") ∧
    runLogs md5 files connected ts ct logs
        = logs ++ [((runOnce md5 files connected ts ct).logPath,
                    (runOnce md5 files connected ts ct).logLines)] :=
  ⟨rfl, rfl, rfl, rfl, rfl, rfl, rfl⟩

/-- C8: when the connectivity check reports no connection, the run makes no
mail attempt, still completes, and the log written during the run is on disk
afterwards. -/
theorem claim8_no_connection (md5 : Content → String)
    (files : List (String × Content)) (ts ct : String)
    (logs : List (String × List String)) (connected : Bool)
    (hconn : connected = false) :
    (runOnce md5 files connected ts ct).emailAttempted = false ∧
    ((runOnce md5 files connected ts ct).logPath,
      (runOnce md5 files connected ts ct).logLines)
        ∈ runLogs md5 files connected ts ct logs := by
  constructor
  · show connected = false
    exact hconn
  · unfold runLogs
    exact List.mem_append_right _ (List.mem_singleton.2 rfl)

/-- Witness for C8 at a concrete offline run. -/
theorem claim8_witness :
    (runOnce md5Fix filesFix false "20240101000000" "ct").emailAttempted = false ∧
    ((runOnce md5Fix filesFix false "20240101000000" "ct").logPath,
      (runOnce md5Fix filesFix false "20240101000000" "ct").logLines)
        ∈ runLogs md5Fix filesFix false "20240101000000" "ct" [] :=
  claim8_no_connection md5Fix filesFix "20240101000000" "ct" [] false rfl

theorem isAbs_abspath (cwd p : String) (hcwd : isAbs cwd = true) :
    isAbs (abspath cwd p) = true := by
  unfold abspath
  by_cases hp : isAbs p = true
  · rw [if_pos hp]
    exact hp
  · rw [if_neg hp]
    exact isAbs_append _ _ (isAbs_append _ _ hcwd)

theorem mainCheck_four (cwd : String) (pathExists isDir : String → Bool)
    (prog d i e : String) :
    mainCheck cwd pathExists isDir [prog, d, i, e]
      = match pyToInt i with
        | none => MainExit.valueError
        | some n =>
          if !pathExists (abspath cwd d) || !isDir (abspath cwd d) then
            MainExit.pathError
          else MainExit.proceed (abspath cwd d) n e := by
  have hdir : (if isAbs d = true then d else abspath cwd d) = abspath cwd d := by
    by_cases hd : isAbs d = true
    · rw [if_pos hd]
      unfold abspath
      rw [if_pos hd]
    · rw [if_neg hd]
  show (match pyToInt i with
        | none => MainExit.valueError
        | some n =>
          let dir := if isAbs d then d else abspath cwd d
          if !pathExists dir || !isDir dir then MainExit.pathError
          else MainExit.proceed dir n e) = _
  cases pyToInt i with
  | none => rfl
  | some n => simp only [hdir]

/-- C9: the CLI prefix of `main` exits with status 1 and prints the usage
message whenever the argument count differs from three user arguments; it
exits with status 1 whenever (after resolution) the directory path does not
exist or is not a directory; and whenever the scan loop is entered, the
directory it receives has already been resolved to an absolute path. -/
theorem claim9_cli (cwd prog : String) (pathExists isDir : String → Bool)
    (hcwd : isAbs cwd = true) :
    (∀ argv : List String, argv.length ≠ 4 →
      mainCheck cwd pathExists isDir argv = MainExit.usageError ∧
      exitCode (mainCheck cwd pathExists isDir argv) = some 1 ∧
      printedMsg (mainCheck cwd pathExists isDir argv)
        = some "Usage: DuplicateFileRemoval.py <directory_path> <time_interval_minutes> <email>") ∧
    (∀ d i e : String,
      (pathExists (abspath cwd d) = false ∨ isDir (abspath cwd d) = false) →
      exitCode (mainCheck cwd pathExists isDir [prog, d, i, e]) = some 1) ∧
    (∀ (argv : List String) (dir : String) (itv : Int) (em : String),
      mainCheck cwd pathExists isDir argv = MainExit.proceed dir itv em →
      isAbs dir = true) := by
  refine ⟨?_, ?_, ?_⟩
  · intro argv hlen
    have h := mainCheck_usage cwd pathExists isDir argv hlen
    refine ⟨h, ?_, ?_⟩ <;> rw [h] <;> rfl
  · intro d i e hbad
    rw [mainCheck_four]
    cases hpy : pyToInt i with
    | none => rfl
    | some n =>
      rcases hbad with hb | hb <;> simp [hb, exitCode]
  · intro argv dir itv em h
    match argv with
    | [] => exact MainExit.noConfusion h
    | [_] => exact MainExit.noConfusion h
    | [_, _] => exact MainExit.noConfusion h
    | [_, _, _] => exact MainExit.noConfusion h
    | _ :: _ :: _ :: _ :: _ :: _ => exact MainExit.noConfusion h
    | [p0, d0, i0, e0] =>
      rw [mainCheck_four] at h
      rcases hpy : pyToInt i0 with _ | n <;> rw [hpy] at h
      · exact MainExit.noConfusion h
      · have h' : (if (!pathExists (abspath cwd d0) || !isDir (abspath cwd d0)) = true
              then MainExit.pathError
              else MainExit.proceed (abspath cwd d0) n e0)
            = MainExit.proceed dir itv em := h
        by_cases hc : (!pathExists (abspath cwd d0) || !isDir (abspath cwd d0)) = true
        · rw [if_pos hc] at h'
          exact MainExit.noConfusion h'
        · rw [if_neg hc] at h'
          have hdir : abspath cwd d0 = dir := by
            cases h'
            rfl
          rw [← hdir]
          exact isAbs_abspath cwd d0 hcwd

/-- Witness for C9: one wrong-argument-count run and one
missing-directory run, both exiting with status 1, from an absolute
working directory. -/
theorem claim9_witness :
    isAbs "/home" = true ∧
    mainCheck "/home" (fun _ => true) (fun _ => true) ["prog"]
      = MainExit.usageError ∧
    exitCode (mainCheck "/home" (fun _ => false) (fun _ => true)
      ["prog", "data", "5", "u@v"]) = some 1 :=
  have h9t := claim9_cli "/home" "prog" (fun _ => true) (fun _ => true) (by decide)
  have h9f := claim9_cli "/home" "prog" (fun _ => false) (fun _ => true) (by decide)
  ⟨by decide, (h9t.1 ["prog"] (by decide)).1,
    h9f.2.1 "data" "5" "u@v" (Or.inl rfl)⟩

/-- C10: invariants of the scanned group mapping — every group is
non-empty, every member of a group hashes to the group's key, every scanned
path lies in exactly one group exactly once, and a fully successful deletion
pass removes `total_scanned` minus the number of distinct fingerprints many
files. -/
theorem claim10_invariant (md5 : Content → String)
    (files : List (String × Content)) (hp : (files.map Prod.fst).Nodup) :
    (∀ g ∈ find_duplicates md5 files, g.2 ≠ []) ∧
    (∀ g ∈ find_duplicates md5 files, ∀ p ∈ g.2,
      ∃ c, (p, c) ∈ files ∧ hash_file md5 c 1024 = g.1) ∧
    List.Perm ((find_duplicates md5 files).flatMap Prod.snd) (files.map Prod.fst) ∧
    ((find_duplicates md5 files).flatMap Prod.snd).Nodup ∧
    (delete_files (find_duplicates md5 files)).length
        + (files.map (fun f => hash_file md5 f.2 1024)).toFinset.card
      = total_scanned (find_duplicates md5 files) := by
  refine ⟨scan_nonnil md5 files, ?_, scan_perm md5 files,
    scan_flatten_nodup md5 files hp, ?_⟩
  · intro g hg p hpm
    rw [group_eq_valueOf md5 files g hg] at hpm
    obtain ⟨f, hf, hfp⟩ := List.mem_map.1 hpm
    have hfilter := List.mem_filter.1 hf
    refine ⟨f.2, ?_, by simpa using hfilter.2⟩
    rw [← hfp]
    exact hfilter.1
  · rw [← groups_length_eq_card md5 files]
    exact delete_count (find_duplicates md5 files) (scan_nonnil md5 files)

/-- Witness for C10 on the concrete tree `a = b ≠ c`: three files scanned,
two distinct fingerprints, one deletion. -/
theorem claim10_witness :
    (filesFix.map Prod.fst).Nodup ∧
    (delete_files (find_duplicates md5Fix filesFix)).length
        + (filesFix.map (fun f => hash_file md5Fix f.2 1024)).toFinset.card
      = total_scanned (find_duplicates md5Fix filesFix) :=
  ⟨by decide, (claim10_invariant md5Fix filesFix (by decide)).2.2.2.2⟩
